import Mathlib

/-!
# Verification of the raw-pipelines record pipeline

A shallow embedding of `src/pipeline.rs`: the length-prefixed record
framing parser (`RecordParserStage`), the filter/uppercase transform
(`BusinessLogicStage`), and the generic stage composition
(`Pipeline::new`, `Pipeline::then`, `Combined::run`, `Pipeline::run`),
together with proofs of the specified properties.

Bytes are modelled as `Fin 256` (the Rust `u8`), records as byte lists
(`Vec<u8>`), and fallible stage execution (`Result<O, E>`) as
`Except E O`.
-/

/-- A byte: the Rust `u8`. -/
abbrev Byte := Fin 256

/-- A record: the Rust `Record = Vec<u8>`. -/
abbrev Record := List Byte

/-- Truncate a natural number to a byte, as Rust integer casts do. -/
def mkByte (n : Nat) : Byte := ⟨n % 256, Nat.mod_lt _ (by omega)⟩

/-- The value of four bytes read big-endian: `u32::from_be_bytes`. -/
def beVal (b0 b1 b2 b3 : Byte) : Nat :=
  b0.val * 16777216 + b1.val * 65536 + b2.val * 256 + b3.val

/-- The structured content of the errors `RecordParserStage::run` builds
with `anyhow!`: a truncated record carries the declared length and the
count of bytes remaining after the header; trailing bytes carry the
count of unparsed bytes. -/
inductive PipeError where
  | truncatedRecord (expected : Nat) (remaining : Nat)
  | trailingBytes (count : Nat)
  deriving DecidableEq, Repr

/-- The parsing loop of `RecordParserStage::run` (`src/pipeline.rs`
lines 22–49).  The Rust code keeps a cursor `i` into the buffer; here
the suffix of the buffer from the cursor onward is the argument.  While
at least 4 bytes remain, the big-endian length `len` is read; if more
than the remaining bytes are declared the loop fails with the truncated
record error, otherwise the next `len` bytes become a record.  After the
loop a nonempty remainder (necessarily 1–3 bytes) is the trailing-bytes
error. -/
def parseRecords : List Byte → Except PipeError (List Record)
  | b0 :: b1 :: b2 :: b3 :: rest =>
    let len := beVal b0 b1 b2 b3
    if len ≤ rest.length then
      match parseRecords (rest.drop len) with
      | .ok records => .ok (rest.take len :: records)
      | .error e => .error e
    else
      .error (.truncatedRecord len rest.length)
  | rest =>
    if rest.isEmpty then .ok []
    else .error (.trailingBytes rest.length)
termination_by l => l.length
decreasing_by simp [List.length_drop]; omega

/-- `RecordParserStage::run`. -/
def RecordParserStage.run (input : List Byte) : Except PipeError (List Record) :=
  parseRecords input

/-- The wire encoding of a length as a 4-byte big-endian header. -/
def be32 (n : Nat) : List Byte :=
  [mkByte (n / 16777216), mkByte (n / 65536), mkByte (n / 256), mkByte n]

/-- Encode one record as a frame: 4-byte big-endian length header
followed by the payload bytes. -/
def encodeFrame (r : Record) : List Byte :=
  be32 r.length ++ r

/-- Encode an ordered sequence of records by concatenating their
frames: the wire format of section 6 of the design. -/
def encodeFrames (rs : List Record) : List Byte :=
  (rs.map encodeFrame).flatten

/-- A UTF-8 continuation byte, `0x80`–`0xBF`. -/
def isCont (b : Byte) : Bool := 0x80 ≤ b.val && b.val < 0xC0

/-- One step of the strict UTF-8 validation performed by the Rust
standard library's `String::from_utf8`: from a leading byte `b` and the
following bytes, the decoded Unicode scalar value and the bytes after
its encoding, or `none` if the bytes are not valid UTF-8 here.
Overlong encodings, surrogate code points and values above `U+10FFFF`
are rejected. -/
def utf8Step (b : Byte) (rest : List Byte) : Option (Nat × List Byte) :=
  if b.val < 0x80 then some (b.val, rest)
  else if b.val < 0xC2 then none
  else if b.val < 0xE0 then
    match rest with
    | c1 :: rest1 =>
      if isCont c1 then
        some ((b.val - 0xC0) * 64 + (c1.val - 0x80), rest1)
      else none
    | _ => none
  else if b.val < 0xF0 then
    match rest with
    | c1 :: c2 :: rest1 =>
      if (((if b.val = 0xE0 then 0xA0 else 0x80) ≤ c1.val &&
            c1.val < (if b.val = 0xED then 0xA0 else 0xC0))) && isCont c2 then
        some ((b.val - 0xE0) * 4096 + (c1.val - 0x80) * 64 + (c2.val - 0x80), rest1)
      else none
    | _ => none
  else if b.val < 0xF5 then
    match rest with
    | c1 :: c2 :: c3 :: rest1 =>
      if ((((if b.val = 0xF0 then 0x90 else 0x80) ≤ c1.val &&
            c1.val < (if b.val = 0xF4 then 0x90 else 0xC0))) && isCont c2) && isCont c3 then
        some ((b.val - 0xF0) * 262144 + (c1.val - 0x80) * 4096 +
          (c2.val - 0x80) * 64 + (c3.val - 0x80), rest1)
      else none
    | _ => none
  else none

/-- After a successful step the remaining bytes are a suffix of the
bytes following the leading byte. -/
theorem utf8Step_length (b : Byte) (rest : List Byte) (c : Nat) (rest1 : List Byte)
    (h : utf8Step b rest = some (c, rest1)) : rest1.length ≤ rest.length := by
  unfold utf8Step at h
  split_ifs at h <;>
    rcases rest with _ | ⟨c1, _ | ⟨c2, _ | ⟨c3, t⟩⟩⟩ <;>
    simp_all <;> omega

/-- Strict UTF-8 validation and decoding of a whole byte sequence to
its list of Unicode scalar values: `String::from_utf8` on a record. -/
def utf8Decode : List Byte → Option (List Nat)
  | [] => some []
  | b :: rest =>
    match h : utf8Step b rest with
    | some (c, rest1) => (utf8Decode rest1).map (fun cs => c :: cs)
    | none => none
termination_by l => l.length
decreasing_by
  have := utf8Step_length b rest _ _ h
  simp
  omega

/-- UTF-8 encoding of one Unicode scalar value: the byte encoding that
Rust's `String::into_bytes` exposes. -/
def utf8EncodeChar (c : Nat) : List Byte :=
  if c < 0x80 then [mkByte c]
  else if c < 0x800 then [mkByte (0xC0 + c / 64), mkByte (0x80 + c % 64)]
  else if c < 0x10000 then
    [mkByte (0xE0 + c / 4096), mkByte (0x80 + c / 64 % 64), mkByte (0x80 + c % 64)]
  else
    [mkByte (0xF0 + c / 262144), mkByte (0x80 + c / 4096 % 64),
      mkByte (0x80 + c / 64 % 64), mkByte (0x80 + c % 64)]

/-- UTF-8 encoding of a list of Unicode scalar values. -/
def utf8Encode (cs : List Nat) : List Byte := (cs.map utf8EncodeChar).flatten

/-- Modelled from the spec: the locale-insensitive, codepoint-wise
Unicode uppercase mapping applied by the Rust standard library's
`str::to_uppercase` (its Unicode character data table is not part of
this repository).  The mapping is given on the Basic Latin and Latin-1
Supplement blocks, the blocks every scenario of the design exercises:
`a`–`z` map to `A`–`Z`, micro sign `U+00B5` to Greek capital mu
`U+039C`, sharp s `U+00DF` to the pair `SS`, `U+00E0`–`U+00FE` except
the division sign `U+00F7` shift down by `0x20`, and `U+00FF` maps to
`U+0178`; code points above `U+00FF` are returned unchanged here. -/
def charToUppercase (c : Nat) : List Nat :=
  if 0x61 ≤ c ∧ c ≤ 0x7A then [c - 0x20]
  else if c = 0xB5 then [0x39C]
  else if c = 0xDF then [0x53, 0x53]
  else if (0xE0 ≤ c ∧ c ≤ 0xF6) ∨ (0xF8 ≤ c ∧ c ≤ 0xFE) then [c - 0x20]
  else if c = 0xFF then [0x178]
  else [c]

/-- `str::to_uppercase` on a decoded string, codepoint by codepoint. -/
def strToUppercase (s : List Nat) : List Nat := (s.map charToUppercase).flatten

/-- The loop of `BusinessLogicStage::run` (`src/pipeline.rs` lines
60–74): records of at most 3 bytes are skipped; a record whose bytes
are valid UTF-8 is uppercased and its byte encoding pushed; a record
that fails UTF-8 decoding is skipped. -/
def businessLoop : List Record → List Record
  | [] => []
  | rec :: rest =>
    if rec.length ≤ 3 then businessLoop rest
    else
      match utf8Decode rec with
      | some s => utf8Encode (strToUppercase s) :: businessLoop rest
      | none => businessLoop rest

/-- `BusinessLogicStage::run`: the loop's output, always `Ok`. -/
def BusinessLogicStage.run (input : List Record) : Except PipeError (List Record) :=
  .ok (businessLoop input)

/-- The spec's description of the transform stage as a stable
filter/map over the input records; compared against
`BusinessLogicStage.run` in the theorem for claim C5. -/
def transformSpec (input : List Record) : List Record :=
  input.filterMap (fun rec =>
    if rec.length ≤ 3 then none
    else (utf8Decode rec).map (fun s => utf8Encode (strToUppercase s)))

/-- A stage `I → O` with error type `E`, represented by its `run`
function (the one method of the Rust `Stage` trait). -/
def Stage (I O E : Type) : Type := I → Except E O

/-- Invoke a stage: `Stage::run`. -/
def Stage.run (s : Stage I O E) (input : I) : Except E O := s input

/-- `Pipeline<S>`: a wrapper around its composed stage. -/
structure Pipeline (I O E : Type) where
  stage : Stage I O E

/-- `Pipeline::new`. -/
def Pipeline.new (stage : Stage I O E) : Pipeline I O E := ⟨stage⟩

/-- `Combined::run` (`src/pipeline.rs` lines 102–105): run stage `a`;
on error, return that error (the `?` operator); otherwise feed the
intermediate value to stage `b`. -/
def Combined.run (a : Stage I M E) (b : Stage M O E) : Stage I O E := fun input =>
  match a input with
  | .ok mid => Stage.run b mid
  | .error e => .error e

/-- `Pipeline::then` (named `andThen` because `then` is a Lean
keyword): wrap the combined stage. -/
def Pipeline.andThen (p : Pipeline I M E) (next : Stage M O E) : Pipeline I O E :=
  ⟨Combined.run p.stage next⟩

/-- `Pipeline::run`: run the composed stage. -/
def Pipeline.run (p : Pipeline I O E) (input : I) : Except E O :=
  Stage.run p.stage input

/-! ## Parser lemmas -/

theorem beVal_be32 (n : Nat) (h : n < 4294967296) :
    beVal (mkByte (n / 16777216)) (mkByte (n / 65536)) (mkByte (n / 256)) (mkByte n) = n := by
  simp only [beVal, mkByte]
  omega

theorem parseRecords_frame (r : Record) (rest : List Byte) (h : r.length < 4294967296) :
    parseRecords (encodeFrame r ++ rest) = (parseRecords rest).map (fun v => r :: v) := by
  have hlen := beVal_be32 r.length h
  simp only [encodeFrame, be32, List.cons_append, List.nil_append]
  rw [parseRecords]
  simp only [hlen, List.length_append, Nat.le_add_right, if_pos, List.take_left, List.drop_left]
  cases parseRecords rest <;> simp [Except.map]

theorem encodeFrames_nil : encodeFrames [] = [] := rfl

theorem encodeFrames_cons (r : Record) (rs : List Record) :
    encodeFrames (r :: rs) = encodeFrame r ++ encodeFrames rs := by
  simp [encodeFrames]

theorem parseRecords_nil : parseRecords [] = .ok [] := by
  simp [parseRecords]

theorem parseRecords_encodeFrames (rs : List Record) (h : ∀ r ∈ rs, r.length < 4294967296) :
    parseRecords (encodeFrames rs) = .ok rs := by
  induction rs with
  | nil => exact parseRecords_nil
  | cons r rest ih =>
    rw [encodeFrames_cons, parseRecords_frame r _ (h r (by simp)),
      ih (fun x hx => h x (by simp [hx]))]
    rfl

theorem be32_eq (b0 b1 b2 b3 : Byte) :
    be32 (beVal b0 b1 b2 b3) = [b0, b1, b2, b3] := by
  have h0 := b0.isLt
  have h1 := b1.isLt
  have h2 := b2.isLt
  have h3 := b3.isLt
  simp only [be32, beVal, mkByte, List.cons.injEq, and_true]
  refine ⟨Fin.ext ?_, Fin.ext ?_, Fin.ext ?_, Fin.ext ?_⟩ <;> simp <;> omega

theorem beVal_lt (b0 b1 b2 b3 : Byte) : beVal b0 b1 b2 b3 < 4294967296 := by
  have h0 := b0.isLt
  have h1 := b1.isLt
  have h2 := b2.isLt
  have h3 := b3.isLt
  simp only [beVal]
  omega

theorem parseRecords_ok_shape (input : List Byte) (rs : List Record)
    (h : parseRecords input = .ok rs) :
    input = encodeFrames rs ∧ ∀ r ∈ rs, r.length < 4294967296 := by
  induction input using parseRecords.induct generalizing rs with
  | case1 b0 b1 b2 b3 rest len hle recs hrec ih =>
    rw [parseRecords] at h
    rw [if_pos hle, hrec] at h
    obtain ⟨ihEq, ihBound⟩ := ih recs hrec
    obtain rfl : (rest.take len :: recs) = rs := by simpa using h
    have htk : (rest.take len).length = len := by
      simp [List.length_take, Nat.min_eq_left hle]
    refine ⟨?_, ?_⟩
    · rw [encodeFrames_cons, encodeFrame, htk]
      show b0 :: b1 :: b2 :: b3 :: rest = be32 (beVal b0 b1 b2 b3) ++ _
      rw [be32_eq]
      have : rest = rest.take len ++ rest.drop len := (List.take_append_drop len rest).symm
      rw [ihEq] at this
      simpa using this
    · intro r hr
      rcases List.mem_cons.mp hr with rfl | hr
      · rw [htk]; exact beVal_lt b0 b1 b2 b3
      · exact ihBound r hr
  | case2 b0 b1 b2 b3 rest len hle e herr =>
    rw [parseRecords] at h
    rw [if_pos hle, herr] at h
    exact absurd h (by simp)
  | case3 b0 b1 b2 b3 rest len hgt =>
    rw [parseRecords] at h
    rw [if_neg hgt] at h
    exact absurd h (by simp)
  | case4 rest hnc hemp =>
    obtain rfl : rest = [] := List.isEmpty_iff.mp hemp
    rw [parseRecords_nil] at h
    obtain rfl : ([] : List Record) = rs := by simpa using h
    exact ⟨rfl, by simp⟩
  | case5 rest hnc hemp =>
    rcases rest with _ | ⟨a, _ | ⟨b, _ | ⟨c, _ | ⟨d, t⟩⟩⟩⟩
    · simp at hemp
    · simp [parseRecords] at h
    · simp [parseRecords] at h
    · simp [parseRecords] at h
    · exact absurd rfl (hnc a b c d t)

theorem parseRecords_frames_append (rs : List Record) (x : List Byte)
    (h : ∀ r ∈ rs, r.length < 4294967296) :
    parseRecords (encodeFrames rs ++ x) = (parseRecords x).map (fun v => rs ++ v) := by
  induction rs with
  | nil =>
    rw [encodeFrames_nil, List.nil_append]
    cases parseRecords x <;> simp [Except.map]
  | cons r rest ih =>
    rw [encodeFrames_cons, List.append_assoc, parseRecords_frame r _ (h r (by simp)),
      ih (fun y hy => h y (by simp [hy]))]
    cases parseRecords x <;> simp [Except.map]

theorem parseRecords_truncated_base (b0 b1 b2 b3 : Byte) (tail : List Byte)
    (h : tail.length < beVal b0 b1 b2 b3) :
    parseRecords (b0 :: b1 :: b2 :: b3 :: tail) =
      .error (.truncatedRecord (beVal b0 b1 b2 b3) tail.length) := by
  rw [parseRecords, if_neg (by omega)]

theorem parseRecords_short (tail : List Byte) (h1 : 1 ≤ tail.length) (h3 : tail.length ≤ 3) :
    parseRecords tail = .error (.trailingBytes tail.length) := by
  rcases tail with _ | ⟨a, _ | ⟨b, _ | ⟨c, _ | ⟨d, t⟩⟩⟩⟩
  · simp at h1
  · simp [parseRecords]
  · simp [parseRecords]
  · simp [parseRecords]
  · simp at h3

/-- A Unicode scalar value: what Rust's `char` can hold. -/
def ValidScalar (c : Nat) : Prop := c < 0x110000 ∧ ¬(0xD800 ≤ c ∧ c < 0xE000)

theorem businessLoop_eq_spec (input : List Record) :
    businessLoop input = transformSpec input := by
  induction input with
  | nil => rfl
  | cons rec rest ih =>
    rw [businessLoop, transformSpec, List.filterMap_cons]
    by_cases hlen : rec.length ≤ 3
    · simp [hlen, ih, transformSpec]
    · cases hdec : utf8Decode rec <;> simp [hlen, hdec, ih, transformSpec]



/-! ## UTF-8 and transform lemmas -/

theorem utf8Decode_cons_step (b : Byte) (rest : List Byte) (c : Nat) (rest1 : List Byte)
    (h : utf8Step b rest = some (c, rest1)) :
    utf8Decode (b :: rest) = (utf8Decode rest1).map (fun cs => c :: cs) := by
  rw [utf8Decode]
  split
  · rename_i c2 rest2 h2
    rw [h] at h2
    simp only [Option.some.injEq, Prod.mk.injEq] at h2
    obtain ⟨rfl, rfl⟩ := h2
    rfl
  · rename_i h2
    rw [h] at h2
    exact absurd h2 (by simp)

theorem utf8Decode_cons_none (b : Byte) (rest : List Byte)
    (h : utf8Step b rest = none) : utf8Decode (b :: rest) = none := by
  rw [utf8Decode]
  split
  · rename_i c2 rest2 h2
    rw [h] at h2
    exact absurd h2 (by simp)
  · rfl

theorem utf8Step_valid (b : Byte) (rest : List Byte) (c : Nat) (rest1 : List Byte)
    (h : utf8Step b rest = some (c, rest1)) : ValidScalar c := by
  have hb := b.isLt
  unfold utf8Step at h
  rcases rest with _ | ⟨c1, _ | ⟨c2, _ | ⟨c3, t⟩⟩⟩ <;>
    simp only [isCont] at h <;>
    split_ifs at h <;>
    simp only [Option.some.injEq, Prod.mk.injEq] at h <;>
    obtain ⟨rfl, rfl⟩ := h <;>
    try simp_all only [Bool.and_eq_true, decide_eq_true_eq]
  all_goals refine ⟨?_, ?_⟩ <;> (try split_ifs at *) <;> omega

theorem utf8Decode_valid (l : List Byte) (cs : List Nat) (h : utf8Decode l = some cs) :
    ∀ c ∈ cs, ValidScalar c := by
  induction l using utf8Decode.induct generalizing cs with
  | case1 =>
    rw [utf8Decode] at h
    obtain rfl : ([] : List Nat) = cs := by simpa using h
    simp
  | case2 b rest c rest1 hstep ih =>
    rw [utf8Decode_cons_step b rest c rest1 hstep] at h
    rcases Option.map_eq_some'.mp h with ⟨cs1, hrest, rfl⟩
    intro x hx
    rcases List.mem_cons.mp hx with rfl | hx
    · exact utf8Step_valid b rest x rest1 hstep
    · exact ih cs1 hrest x hx
  | case3 b rest hstep =>
    rw [utf8Decode_cons_none b rest hstep] at h
    exact absurd h (by simp)

theorem utf8Step_enc1 (c : Nat) (h : c < 0x80) (rest : List Byte) :
    utf8Step (mkByte c) rest = some (c, rest) := by
  unfold utf8Step mkByte
  simp only [Fin.val_mk]
  rw [if_pos (by omega)]
  simp only [Option.some.injEq, Prod.mk.injEq]
  exact ⟨by omega, trivial⟩

theorem utf8Step_enc2 (c : Nat) (h1 : 0x80 ≤ c) (h2 : c < 0x800) (rest : List Byte) :
    utf8Step (mkByte (0xC0 + c / 64)) (mkByte (0x80 + c % 64) :: rest) = some (c, rest) := by
  unfold utf8Step mkByte isCont
  simp only [Fin.val_mk]
  rw [if_neg (by omega), if_neg (by omega), if_pos (by omega), if_pos (by simp; omega)]
  simp only [Option.some.injEq, Prod.mk.injEq]
  exact ⟨by omega, trivial⟩

theorem utf8Step_enc3 (c : Nat) (h1 : 0x800 ≤ c) (h2 : c < 0x10000)
    (hs : ¬(0xD800 ≤ c ∧ c < 0xE000)) (rest : List Byte) :
    utf8Step (mkByte (0xE0 + c / 4096))
      (mkByte (0x80 + c / 64 % 64) :: mkByte (0x80 + c % 64) :: rest) = some (c, rest) := by
  unfold utf8Step mkByte isCont
  simp only [Fin.val_mk]
  rw [if_neg (by omega), if_neg (by omega), if_neg (by omega), if_pos (by omega)]
  rw [if_pos ?guard]
  case guard =>
    simp only [Bool.and_eq_true, decide_eq_true_eq]
    refine ⟨⟨?_, ?_⟩, ?_, ?_⟩ <;> (try split_ifs) <;> omega
  simp only [Option.some.injEq, Prod.mk.injEq]
  exact ⟨by omega, trivial⟩

theorem utf8Step_enc4 (c : Nat) (h1 : 0x10000 ≤ c) (h2 : c < 0x110000) (rest : List Byte) :
    utf8Step (mkByte (0xF0 + c / 262144))
      (mkByte (0x80 + c / 4096 % 64) :: mkByte (0x80 + c / 64 % 64) ::
        mkByte (0x80 + c % 64) :: rest) = some (c, rest) := by
  unfold utf8Step mkByte isCont
  simp only [Fin.val_mk]
  rw [if_neg (by omega), if_neg (by omega), if_neg (by omega), if_neg (by omega),
    if_pos (by omega)]
  rw [if_pos ?guard]
  case guard =>
    simp only [Bool.and_eq_true, decide_eq_true_eq]
    refine ⟨⟨⟨?_, ?_⟩, ?_, ?_⟩, ?_, ?_⟩ <;> (try split_ifs) <;> omega
  simp only [Option.some.injEq, Prod.mk.injEq]
  exact ⟨by omega, trivial⟩

theorem utf8Decode_encodeChar (c : Nat) (hc : ValidScalar c) (rest : List Byte) :
    utf8Decode (utf8EncodeChar c ++ rest) = (utf8Decode rest).map (fun cs => c :: cs) := by
  obtain ⟨hv, hns⟩ := hc
  unfold utf8EncodeChar
  split_ifs with ha hb hd
  · exact utf8Decode_cons_step _ _ _ _ (utf8Step_enc1 c ha rest)
  · exact utf8Decode_cons_step _ _ _ _ (utf8Step_enc2 c (by omega) hb rest)
  · exact utf8Decode_cons_step _ _ _ _ (utf8Step_enc3 c (by omega) hd hns rest)
  · exact utf8Decode_cons_step _ _ _ _ (utf8Step_enc4 c (by omega) hv rest)

theorem utf8Decode_encode (cs : List Nat) (h : ∀ c ∈ cs, ValidScalar c) :
    utf8Decode (utf8Encode cs) = some cs := by
  induction cs with
  | nil => rw [utf8Encode]; simp [utf8Decode]
  | cons c rest ih =>
    have : utf8Encode (c :: rest) = utf8EncodeChar c ++ utf8Encode rest := by
      simp [utf8Encode]
    rw [this, utf8Decode_encodeChar c (h c (by simp)) _,
      ih (fun x hx => h x (by simp [hx]))]
    rfl

theorem charToUppercase_valid (c : Nat) (hc : ValidScalar c) :
    ∀ u ∈ charToUppercase c, ValidScalar u := by
  obtain ⟨hv, hns⟩ := hc
  unfold charToUppercase
  split_ifs <;> intro u hu <;>
    simp only [List.mem_cons, List.not_mem_nil, or_false] at hu
  all_goals first
    | (obtain rfl | rfl := hu; exact ⟨by omega, by omega⟩; exact ⟨by omega, by omega⟩)
    | (obtain rfl := hu; exact ⟨by omega, by omega⟩)

theorem strToUppercase_valid (s : List Nat) (h : ∀ c ∈ s, ValidScalar c) :
    ∀ u ∈ strToUppercase s, ValidScalar u := by
  intro u hu
  rw [strToUppercase] at hu
  rcases List.mem_flatten.mp hu with ⟨l, hl, hul⟩
  rcases List.mem_map.mp hl with ⟨c, hcs, rfl⟩
  exact charToUppercase_valid c (h c hcs) u hul

theorem businessLoop_mem (input : List Record) (r : Record) (hr : r ∈ businessLoop input) :
    ∃ rec ∈ input, ∃ s, utf8Decode rec = some s ∧ r = utf8Encode (strToUppercase s) := by
  induction input with
  | nil => simp [businessLoop] at hr
  | cons rec rest ih =>
    rw [businessLoop] at hr
    by_cases hlen : rec.length ≤ 3
    · rw [if_pos hlen] at hr
      rcases ih hr with ⟨x, hx, s, hs, hrs⟩
      exact ⟨x, by simp [hx], s, hs, hrs⟩
    · rw [if_neg hlen] at hr
      cases hdec : utf8Decode rec with
      | some s =>
        simp only [hdec] at hr
        rcases List.mem_cons.mp hr with rfl | hr
        · exact ⟨rec, by simp, s, hdec, rfl⟩
        · rcases ih hr with ⟨x, hx, s2, hs2, hrs⟩
          exact ⟨x, by simp [hx], s2, hs2, hrs⟩
      | none =>
        simp only [hdec] at hr
        rcases ih hr with ⟨x, hx, s2, hs2, hrs⟩
        exact ⟨x, by simp [hx], s2, hs2, hrs⟩

theorem businessLoop_output_utf8 (input : List Record) (r : Record)
    (hr : r ∈ businessLoop input) : (utf8Decode r).isSome := by
  rcases businessLoop_mem input r hr with ⟨x, hx, s, hs, rfl⟩
  rw [utf8Decode_encode (strToUppercase s)
    (strToUppercase_valid s (utf8Decode_valid x s hs))]
  rfl


/-! ## Claim theorems -/

/-- Convenience: a byte buffer from numeric literals. -/
def bytes (l : List Nat) : List Byte := l.map mkByte

/-- C1: encoding any ordered sequence of byte-sequences as 4-byte
big-endian length-headed frames, concatenating, and decoding with
`RecordParserStage::run` succeeds and yields back the original
sequence, byte for byte and in order; the header can represent each
length, i.e. each is below `2^32`. -/
theorem frameRoundtrip (rs : List Record) (h : ∀ r ∈ rs, r.length < 4294967296) :
    RecordParserStage.run (encodeFrames rs) = .ok rs :=
  parseRecords_encodeFrames rs h

theorem frameRoundtrip_witness :
    (∀ r ∈ [bytes [97, 98, 99], bytes [120, 121]], r.length < 4294967296) ∧
    RecordParserStage.run (encodeFrames [bytes [97, 98, 99], bytes [120, 121]]) =
      .ok [bytes [97, 98, 99], bytes [120, 121]] :=
  ⟨by decide, frameRoundtrip [bytes [97, 98, 99], bytes [120, 121]] (by decide)⟩

/-- C2: the composed pipeline `Pipeline::new(A).then(B).run(x)` runs
`A.run(x)` first; on failure it returns A's error unchanged and the
result does not depend on `B` at all (`B.run` is never invoked); on
success with `m` it returns `B.run(m)`. -/
theorem pipelineShortCircuit {I M O E : Type} (a : Stage I M E) (b : Stage M O E) (x : I) :
    (∀ e, a x = .error e →
      ((Pipeline.new a).andThen b).run x = .error e ∧
      ∀ b2 : Stage M O E, ((Pipeline.new a).andThen b2).run x = .error e) ∧
    (∀ m, a x = .ok m → ((Pipeline.new a).andThen b).run x = Stage.run b m) := by
  constructor
  · intro e he
    constructor
    · simp [Pipeline.run, Pipeline.andThen, Pipeline.new, Combined.run, Stage.run, he]
    · intro b2
      simp [Pipeline.run, Pipeline.andThen, Pipeline.new, Combined.run, Stage.run, he]
  · intro m hm
    simp [Pipeline.run, Pipeline.andThen, Pipeline.new, Combined.run, Stage.run, hm]

theorem pipelineShortCircuit_witness :
    ((Pipeline.new (fun _ : Nat => (Except.error 7 : Except Nat Nat))).andThen
        (fun m : Nat => (Except.ok (m + 1) : Except Nat Nat))).run 0 = Except.error 7 ∧
    ((Pipeline.new (fun n : Nat => (Except.ok (n * 2) : Except Nat Nat))).andThen
        (fun m : Nat => (Except.ok (m + 1) : Except Nat Nat))).run 3 = Except.ok 7 :=
  ⟨((pipelineShortCircuit (fun _ : Nat => Except.error 7)
      (fun m : Nat => Except.ok (m + 1)) 0).1 7 rfl).1,
   (pipelineShortCircuit (fun n : Nat => Except.ok (n * 2))
      (fun m : Nat => Except.ok (m + 1)) 3).2 6 rfl⟩

/-- C3: a buffer consisting of well-formed frames followed by a header
declaring more bytes than remain after it makes `RecordParserStage::run`
fail with the truncated-record error carrying the declared length and
the actual remaining byte count. -/
theorem truncatedRecordError (rs : List Record) (h : ∀ r ∈ rs, r.length < 4294967296)
    (b0 b1 b2 b3 : Byte) (tail : List Byte) (hlt : tail.length < beVal b0 b1 b2 b3) :
    RecordParserStage.run (encodeFrames rs ++ b0 :: b1 :: b2 :: b3 :: tail) =
      .error (.truncatedRecord (beVal b0 b1 b2 b3) tail.length) := by
  show parseRecords _ = _
  rw [parseRecords_frames_append rs _ h, parseRecords_truncated_base b0 b1 b2 b3 tail hlt]
  rfl

theorem truncatedRecordError_witness :
    ([] : List Byte).length < beVal (mkByte 0) (mkByte 0) (mkByte 0) (mkByte 5) ∧
    RecordParserStage.run (encodeFrames [bytes [1, 2]] ++
        mkByte 0 :: mkByte 0 :: mkByte 0 :: mkByte 5 :: []) =
      .error (.truncatedRecord (beVal (mkByte 0) (mkByte 0) (mkByte 0) (mkByte 5)) 0) :=
  ⟨by decide,
   truncatedRecordError [bytes [1, 2]] (by decide) (mkByte 0) (mkByte 0) (mkByte 0)
     (mkByte 5) [] (by decide)⟩

/-- C4: the empty buffer decodes to the empty record sequence with no
error; every buffer of total length 1–3, and every well-formed frame
sequence followed by 1–3 extra bytes, fails with the trailing-bytes
error carrying exactly the leftover count (no truncated-record error
for such a tail). -/
theorem trailingBytesError :
    RecordParserStage.run [] = .ok [] ∧
    (∀ input : List Byte, 1 ≤ input.length → input.length ≤ 3 →
      RecordParserStage.run input = .error (.trailingBytes input.length)) ∧
    (∀ (rs : List Record) (tail : List Byte), (∀ r ∈ rs, r.length < 4294967296) →
      1 ≤ tail.length → tail.length ≤ 3 →
      RecordParserStage.run (encodeFrames rs ++ tail) =
        .error (.trailingBytes tail.length)) := by
  refine ⟨parseRecords_nil, fun input h1 h3 => parseRecords_short input h1 h3, ?_⟩
  intro rs tail hb h1 h3
  show parseRecords _ = _
  rw [parseRecords_frames_append rs tail hb, parseRecords_short tail h1 h3]
  rfl

theorem trailingBytesError_witness :
    RecordParserStage.run (bytes [9, 9]) = .error (.trailingBytes 2) ∧
    RecordParserStage.run (encodeFrames [bytes [97, 98, 99, 100]] ++ bytes [7]) =
      .error (.trailingBytes 1) :=
  ⟨trailingBytesError.2.1 (bytes [9, 9]) (by decide) (by decide),
   trailingBytesError.2.2 [bytes [97, 98, 99, 100]] (bytes [7]) (by decide) (by decide)
     (by decide)⟩

/-- C5: `BusinessLogicStage::run` produces exactly the records of byte
length at least 4 whose bytes are valid UTF-8, each replaced by the
byte encoding of the uppercase transformation of its text, in input
order, with no record split, merged or reordered: a stable filter/map. -/
theorem transformFilterMap (input : List Record) :
    BusinessLogicStage.run input = .ok (transformSpec input) := by
  show Except.ok (businessLoop input) = _
  rw [businessLoop_eq_spec]

/-- C6: `BusinessLogicStage::run` never returns an error, and a record
that fails UTF-8 decoding is silently dropped by the loop. -/
theorem transformNeverFails :
    (∀ input : List Record, ∃ out, BusinessLogicStage.run input = .ok out) ∧
    (∀ (rec : Record) (rest : List Record), utf8Decode rec = none →
      businessLoop (rec :: rest) = businessLoop rest) := by
  constructor
  · intro input
    exact ⟨businessLoop input, rfl⟩
  · intro rec rest hdec
    rw [businessLoop]
    by_cases hlen : rec.length ≤ 3
    · rw [if_pos hlen]
    · rw [if_neg hlen, hdec]

theorem transformNeverFails_witness :
    (∃ out, BusinessLogicStage.run [bytes [255, 254, 1, 1]] = .ok out) ∧
    businessLoop [bytes [255, 254, 1, 1]] = businessLoop [] :=
  ⟨transformNeverFails.1 [bytes [255, 254, 1, 1]],
   transformNeverFails.2 (bytes [255, 254, 1, 1]) []
     (utf8Decode_cons_none (mkByte 255) (bytes [254, 1, 1]) (by decide))⟩

/-- C7: `RecordParserStage::run` succeeds on a buffer if and only if
the buffer is exactly a concatenation of zero or more frames, the sum
of all frame sizes equalling the buffer's total length; on any other
buffer it returns an error. -/
theorem parserExactFrames (input : List Byte) :
    ((∃ out, RecordParserStage.run input = .ok out) ↔
      ∃ rs, (∀ r ∈ rs, r.length < 4294967296) ∧ input = encodeFrames rs) ∧
    ((¬∃ rs, (∀ r ∈ rs, r.length < 4294967296) ∧ input = encodeFrames rs) →
      ∃ e, RecordParserStage.run input = .error e) := by
  constructor
  · constructor
    · rintro ⟨out, hout⟩
      obtain ⟨heq, hb⟩ := parseRecords_ok_shape input out hout
      exact ⟨out, hb, heq⟩
    · rintro ⟨rs, hb, rfl⟩
      exact ⟨rs, parseRecords_encodeFrames rs hb⟩
  · intro hno
    cases hrun : RecordParserStage.run input with
    | ok out =>
      obtain ⟨heq, hb⟩ := parseRecords_ok_shape input out hrun
      exact absurd ⟨out, hb, heq⟩ hno
    | error e => exact ⟨e, rfl⟩

theorem parserExactFrames_witness :
    ∃ e, RecordParserStage.run (bytes [0, 0, 0, 5]) = .error e :=
  (parserExactFrames (bytes [0, 0, 0, 5])).2 (by
    rintro ⟨rs, hb, heq⟩
    have hok := parseRecords_encodeFrames rs hb
    rw [← heq] at hok
    have hev : parseRecords (bytes [0, 0, 0, 5]) =
        .error (.truncatedRecord (beVal (mkByte 0) (mkByte 0) (mkByte 0) (mkByte 5)) 0) :=
      parseRecords_truncated_base (mkByte 0) (mkByte 0) (mkByte 0) (mkByte 5) [] (by decide)
    rw [hev] at hok
    exact absurd hok (by simp))

/-- C8: the two concrete scenarios of the design: the buffer
`00 00 00 03 61 62 63 00 00 00 02 78 79` decodes to the records "abc"
and "xy", which the transform drops entirely; the buffer
`00 00 00 04 74 65 73 74` decodes to ["test"], which the transform
maps to ["TEST"]. -/
theorem concreteScenarios :
    RecordParserStage.run (bytes [0, 0, 0, 3, 97, 98, 99, 0, 0, 0, 2, 120, 121]) =
      .ok [bytes [97, 98, 99], bytes [120, 121]] ∧
    BusinessLogicStage.run [bytes [97, 98, 99], bytes [120, 121]] = .ok [] ∧
    RecordParserStage.run (bytes [0, 0, 0, 4, 116, 101, 115, 116]) =
      .ok [bytes [116, 101, 115, 116]] ∧
    BusinessLogicStage.run [bytes [116, 101, 115, 116]] = .ok [bytes [84, 69, 83, 84]] := by
  refine ⟨?_, ?_, ?_, ?_⟩
  · have heq : bytes [0, 0, 0, 3, 97, 98, 99, 0, 0, 0, 2, 120, 121] =
        encodeFrames [bytes [97, 98, 99], bytes [120, 121]] := by decide
    rw [heq]
    exact parseRecords_encodeFrames _ (by decide)
  · simp +decide [BusinessLogicStage.run, businessLoop, bytes, mkByte]
  · have heq : bytes [0, 0, 0, 4, 116, 101, 115, 116] =
        encodeFrames [bytes [116, 101, 115, 116]] := by decide
    rw [heq]
    exact parseRecords_encodeFrames _ (by decide)
  · simp +decide [BusinessLogicStage.run, businessLoop, utf8Decode, utf8Step, isCont,
      strToUppercase, charToUppercase, utf8Encode, utf8EncodeChar, mkByte, bytes]

/-- C9: every record output by `BusinessLogicStage::run` is valid UTF-8
and equals the byte encoding of the uppercase transformation of the
text of some input record. -/
theorem outputValidUtf8 (input : List Record) (out : List Record)
    (h : BusinessLogicStage.run input = .ok out) :
    ∀ r ∈ out, (utf8Decode r).isSome ∧
      ∃ rec ∈ input, ∃ s, utf8Decode rec = some s ∧ r = utf8Encode (strToUppercase s) := by
  have h2 : Except.ok (businessLoop input) = Except.ok out := h
  obtain rfl : businessLoop input = out := by simpa using h2
  intro r hr
  exact ⟨businessLoop_output_utf8 input r hr, businessLoop_mem input r hr⟩

theorem outputValidUtf8_witness :
    (utf8Decode (bytes [84, 69, 83, 84])).isSome ∧
    ∃ rec ∈ [bytes [116, 101, 115, 116]], ∃ s, utf8Decode rec = some s ∧
      bytes [84, 69, 83, 84] = utf8Encode (strToUppercase s) :=
  outputValidUtf8 [bytes [116, 101, 115, 116]] [bytes [84, 69, 83, 84]]
    (by simp +decide [BusinessLogicStage.run, businessLoop, utf8Decode, utf8Step, isCont,
      strToUppercase, charToUppercase, utf8Encode, utf8EncodeChar, mkByte, bytes])
    (bytes [84, 69, 83, 84]) (by decide)

/-- C10: zero-length frames are accepted: a concatenation of frames
with zero-length frames among them decodes to the record sequence with
an empty record in each such position, and the 4-byte buffer
`00 00 00 00` decodes to the one-element sequence holding the empty
record. -/
theorem zeroLengthFrames (rs : List Record) (h : ∀ r ∈ rs, r.length < 4294967296) :
    RecordParserStage.run (encodeFrames rs) = .ok rs ∧
    RecordParserStage.run (bytes [0, 0, 0, 0]) = .ok [[]] :=
  ⟨parseRecords_encodeFrames rs h, by
    have heq : bytes [0, 0, 0, 0] = encodeFrames [[]] := by decide
    rw [heq]
    exact parseRecords_encodeFrames _ (by decide)⟩

theorem zeroLengthFrames_witness :
    (∀ r ∈ [([] : Record), bytes [97], []], r.length < 4294967296) ∧
    RecordParserStage.run (encodeFrames [([] : Record), bytes [97], []]) =
      .ok [[], bytes [97], []] :=
  ⟨by decide, (zeroLengthFrames [[], bytes [97], []] (by decide)).1⟩
